import Mathlib

/-! Shallow embedding of the `pauli_lindblad_per` package of AutomatedPERTools:
the noise-model tuning/sampling engine (`framework/noisemodel.py`), circuit-layer
partitioning (`framework/percircuit.py`, `framework/circuitlayer.py`), benchmark
instance construction (`tomography/benchmarkinstance.py`), the NNLS generator
reconstruction (`tomography/layernoisedata.py`), degeneracy-lifting term fits
(`tomography/termdata.py`), PER instance assembly (`per/perinstance.py`,
`framework/instance.py`) and the benchmark generation driver
(`tomography/experiment.py` / `tomography/layerlearning.py`).
Machine reals (numpy floats) are modelled by `Real`; the `random()` stream is an
explicit argument; Python `dict` access is modelled with last-binding-wins
association-list lookup, returning `Option` where bare indexing can raise. -/

namespace PER

/-- One letter of a Pauli string.  Phases are ignored throughout, as in
`primitives/pauli.py`, whose equality, hashing and multiplication all strip
the phase. -/
inductive PChar
  | I | X | Y | Z
deriving DecidableEq, Repr

/-- Single-qubit phaseless Pauli product (`Pauli.__mul__` composes the
operators and drops the resulting phase). -/
def PChar.mul : PChar → PChar → PChar
  | .I, q => q
  | p, .I => p
  | .X, .X => .I
  | .Y, .Y => .I
  | .Z, .Z => .I
  | .X, .Y => .Z
  | .Y, .X => .Z
  | .X, .Z => .Y
  | .Z, .X => .Y
  | .Y, .Z => .X
  | .Z, .Y => .X

/-- An `n`-qubit Pauli operator without phase: one letter per qubit. -/
abbrev PauliOp (n : ℕ) := Fin n → PChar

/-- `Pauli.ID(n)`: the identity operator `"I"*n`. -/
def PauliOp.ID (n : ℕ) : PauliOp n := fun _ => PChar.I

/-- Qubit-wise phaseless product of two Pauli strings. -/
def pmulOp {n : ℕ} (a b : PauliOp n) : PauliOp n := fun i => PChar.mul (a i) (b i)

/-- Two single-qubit Paulis anticommute iff both are non-identity and differ. -/
def PChar.acp (p q : PChar) : Bool :=
  decide (p ≠ PChar.I) && decide (q ≠ PChar.I) && decide (p ≠ q)

/-- `Pauli.commutes`: two Pauli strings commute iff the number of qubit
positions whose letters anticommute is even. -/
def PauliOp.commutes {n : ℕ} (a b : PauliOp n) : Bool :=
  ((List.finRange n).countP (fun i => PChar.acp (a i) (b i))) % 2 == 0

/-- Lookup in a Python `dict` built from an association list by repeated
assignment: the last binding of a key wins; `none` when the key is absent
(a bare `d[k]` would raise `KeyError`). -/
def dictFind {α : Type} [DecidableEq α] (l : List (α × ℝ)) (k : α) : Option ℝ :=
  (l.reverse.find? (fun q => decide (q.1 = k))).map (fun q => q.2)

/-- `dict.get(k, d)`: lookup with a default. -/
def dictGetD {α : Type} [DecidableEq α] (l : List (α × ℝ)) (k : α) (d : ℝ) : ℝ :=
  (dictFind l k).getD d

/-- The first loop of `NoiseModel._init_tuning`: for each learned pair
`(pauli, lambdak)` read the target `phik = new_coeffs.get(pauli, 0)` and emit
`(pauli, .5*(1-exp(-2*abs(phik-lambdak))), sgn)` with `sgn = 1` iff
`phik < lambdak`. -/
noncomputable def tuningProbs {α : Type} [DecidableEq α] (coeffs nparams : List (α × ℝ)) :
    List (α × ℝ × ℕ) :=
  coeffs.map (fun pl =>
    (pl.1, (1 / 2) * (1 - Real.exp (-2 * |dictGetD nparams pl.1 0 - pl.2|)),
      if dictGetD nparams pl.1 0 < pl.2 then 1 else 0))

/-- The second loop of `_init_tuning`, accumulating
`overhead *= exp(2*(lambdak-phik))` over the terms with `phik < lambdak`.
Here `phik = new_coeffs[pauli]` is a bare dict access, so a missing key
aborts the computation (`KeyError`), hence the `Option` accumulator. -/
noncomputable def overheadLoop {α : Type} [DecidableEq α] (nparams : List (α × ℝ)) :
    Option ℝ → List (α × ℝ) → Option ℝ
  | acc, [] => acc
  | acc, pl :: rest =>
      overheadLoop nparams
        (acc.bind (fun ov => (dictFind nparams pl.1).map
          (fun phik => if phik < pl.2 then ov * Real.exp (2 * (pl.2 - phik)) else ov))) rest

/-- `NoiseModel._init_tuning`: derive the sampling distribution and the
overhead from the learned coefficients and a target assignment. -/
noncomputable def init_tuning {α : Type} [DecidableEq α] (coeffs nparams : List (α × ℝ)) :
    Option (List (α × ℝ × ℕ) × ℝ) :=
  (overheadLoop nparams (some 1) coeffs).map (fun ov => (tuningProbs coeffs nparams, ov))

/-- `NoiseModel.init_scaling(strength)`: tune with targets
`[(term, strength*coeff) for term, coeff in self.coeffs]`. -/
noncomputable def init_scaling {α : Type} [DecidableEq α] (coeffs : List (α × ℝ))
    (strength : ℝ) : Option (List (α × ℝ × ℕ) × ℝ) :=
  init_tuning coeffs (coeffs.map (fun pl => (pl.1, strength * pl.2)))

/-- The distribution and overhead stored by `init_scaling`; the default is
never used because every learned term is a key of the scaled target dict. -/
noncomputable def scaledDist {α : Type} [DecidableEq α] (coeffs : List (α × ℝ)) (s : ℝ) :
    List (α × ℝ × ℕ) × ℝ :=
  (init_scaling coeffs s).getD ([], 1)

/-- `self.overhead` after `init_scaling(s)`. -/
noncomputable def overheadAt {α : Type} [DecidableEq α] (coeffs : List (α × ℝ)) (s : ℝ) : ℝ :=
  (scaledDist coeffs s).2

/-- The loop of `NoiseModel.sample`: the `k`-th term fires when
`draws k < prob_k`; fired terms are composed into the running operator and
their sign bits are XORed. -/
noncomputable def nmSampleGo {n : ℕ} (draws : ℕ → ℝ) :
    ℕ → PauliOp n × ℕ → List (PauliOp n × ℝ × ℕ) → PauliOp n × ℕ
  | _, acc, [] => acc
  | k, acc, t :: rest =>
      nmSampleGo draws (k + 1)
        (if draws k < t.2.1 then (pmulOp acc.1 t.1, acc.2 ^^^ t.2.2) else acc) rest

/-- `NoiseModel.sample` with the stream of `random()` draws explicit, starting
from the identity operator `"I"*n` and sign `0`. -/
noncomputable def nmSample {n : ℕ} (probs : List (PauliOp n × ℝ × ℕ)) (draws : ℕ → ℝ) :
    PauliOp n × ℕ :=
  nmSampleGo draws 0 (PauliOp.ID n, 0) probs

/-- The sign returned by `CircuitLayer.sample`: it calls
`noisemodel.init_scaling(noise_strength)` and then returns the sign of one
`noisemodel.sample()` draw. -/
noncomputable def layerSampleSgn {n : ℕ} (coeffs : List (PauliOp n × ℝ)) (s : ℝ)
    (draws : ℕ → ℝ) : ℕ :=
  (nmSample (scaledDist coeffs s).1 draws).2

/-- The accumulation loop of `PERInstance._instance` over the layers (each
represented by its noise-model coefficient list): `sgn_tot ^= sgn` and
`overhead *= layer.noisemodel.overhead`.  `draws k` is the `random()` stream
consumed by the `k`-th layer. -/
noncomputable def perAccumGo {n : ℕ} (s : ℝ) (draws : ℕ → ℕ → ℝ) :
    ℕ → ℕ × ℝ → List (List (PauliOp n × ℝ)) → ℕ × ℝ
  | _, acc, [] => acc
  | k, acc, L :: rest =>
      perAccumGo s draws (k + 1)
        (acc.1 ^^^ layerSampleSgn L s (draws k), acc.2 * overheadAt L s) rest

/-- `PERInstance._instance` accumulation, starting from sign `0` and
overhead `1`. -/
noncomputable def perAccum {n : ℕ} (layers : List (List (PauliOp n × ℝ))) (s : ℝ)
    (draws : ℕ → ℕ → ℝ) : ℕ × ℝ :=
  perAccumGo s draws 0 (0, 1) layers

/-- The state of a `PERInstance` needed by the expectation methods: total sign
and overhead from construction, the result counts (bitstring keys) and the
recorded readout-twirl string (`true` marks an `X`). -/
structure PERInst (n : ℕ) where
  sgn_tot : ℕ
  overhead : ℝ
  result : List (List Bool × ℕ)
  rostring : List Bool

/-- One key of `Instance._untwirl_result`: flip each bit whose readout-twirl
letter was `X` (`zip` truncates to the shorter of the two strings). -/
def untwirlKey (ro key : List Bool) : List Bool :=
  (key.zip ro).map (fun bf => if bf.2 then !bf.1 else bf.1)

/-- Assignment into a Python dict: overwrite in place if the key exists,
else append the new binding. -/
def dinsert {κ : Type} [DecidableEq κ] (d : List (κ × ℕ)) (k : κ) (v : ℕ) : List (κ × ℕ) :=
  if decide (k ∈ d.map Prod.fst) then d.map (fun p => if p.1 = k then (k, v) else p)
  else d ++ [(k, v)]

/-- `Instance._untwirl_result`: rebuild the result dict with untwirled keys. -/
def untwirlResult (ro : List Bool) (result : List (List Bool × ℕ)) :
    List (List Bool × ℕ) :=
  result.foldl (fun d kv => dinsert d (untwirlKey ro kv.1) kv.2) []

/-- `Instance.get_expectation`: untwirl the results, mark the non-identity
positions of the Pauli in reversed order, and average `(-1)^overlap` against
the counts. -/
noncomputable def get_expectation {n : ℕ} (inst : PERInst n) (pauli : PauliOp n) : ℝ :=
  let result := untwirlResult inst.rostring inst.result
  let pz := ((List.finRange n).map (fun i => decide (pauli i ≠ PChar.I))).reverse
  let est := result.foldl
    (fun e kv =>
      e + (-1 : ℝ) ^ ((pz.zip kv.1).countP (fun bb => bb.1 && bb.2)) * (kv.2 : ℝ)) 0
  est / ((result.map (fun kv => kv.2)).sum : ℝ)

/-- `PERInstance.get_adjusted_expectation`:
`expec * self.overhead * (-1)**self.sgn_tot`. -/
noncomputable def get_adjusted_expectation {n : ℕ} (inst : PERInst n) (pauli : PauliOp n) : ℝ :=
  get_expectation inst pauli * inst.overhead * (-1 : ℝ) ^ inst.sgn_tot

/-- A `PERInstance` after `_instance` ran: sign and overhead accumulated over
the layers, together with the (later attached) results and readout string. -/
noncomputable def mkPERInst {n : ℕ} (layers : List (List (PauliOp n × ℝ))) (s : ℝ)
    (draws : ℕ → ℕ → ℝ) (result : List (List Bool × ℕ)) (ro : List Bool) : PERInst n :=
  ⟨(perAccum layers s draws).1, (perAccum layers s draws).2, result, ro⟩

/-- `TermData.fit_single` after `fit` has run: `spam` is the fitted SPAM
coefficient of the conjugate pair and `fid` the current (depth-swept, paired)
`self.fidelity`.  Returns the stored fidelity together with whether the
clamping warning fired. -/
noncomputable def fit_single (single_vals : List ℝ) (single_count : ℕ) (spam fid : ℝ) :
    ℝ × Bool :=
  let expectation := single_vals.sum / (single_count : ℝ)
  let fidelity := |expectation| / spam
  if fid ^ 2 > fidelity then (fid ^ 2, true) else (fidelity, false)

/-- One entry of `LayerNoiseData._term_data` after all `TermData.fit` calls:
the key Pauli, its Clifford conjugate `pair`, and the fitted fidelity. -/
structure TermDatum (n : ℕ) where
  pauli : PauliOp n
  pair : PauliOp n
  fidelity : ℝ

/-- `LayerNoiseData._issingle`: the Pauli is conjugate to a distinct term that
is itself a key of the term-data dict. -/
def issingle {n : ℕ} (tds : List (TermDatum n)) (d : TermDatum n) : Bool :=
  decide (d.pauli ≠ d.pair) && decide (d.pair ∈ tds.map (fun t => t.pauli))

/-- The `F2` entry associated with a term datum in `nnls_fit`: the term itself
when a degeneracy is present, otherwise its conjugate pair. -/
def pairOf {n : ℕ} (tds : List (TermDatum n)) (d : TermDatum n) : PauliOp n :=
  if issingle tds d then d.pauli else d.pair

/-- `sprod`: the symplectic product, `1` iff the two Paulis anticommute. -/
def sprod {n : ℕ} (a b : PauliOp n) : ℕ := if PauliOp.commutes a b then 0 else 1

/-- `np.add(M1, M2)` from `nnls_fit`, with `M1[i][j] = sprod(F1[j], F1[i])`
and `M2[i][j] = sprod(F1[j], F2[i])`, over the reals (the rank test of
`np.linalg.matrix_rank` is real-linear-algebra rank). -/
def commMatrix {n : ℕ} (tds : List (TermDatum n)) :
    Matrix (Fin tds.length) (Fin tds.length) ℝ := fun i j =>
  (sprod (tds.get j).pauli (tds.get i).pauli : ℕ) +
    (sprod (tds.get j).pauli (pairOf tds (tds.get i)) : ℕ)

/-- `LayerNoiseData.nnls_fit`: fail when `rank(M1+M2) != len(F1)`, otherwise
package `zip(F1, coeffs)` where `coeffs = nnls(M1+M2, -log(fidelities))`.
The external `scipy.optimize.nnls` call is a parameter. -/
noncomputable def nnls_fit {n : ℕ} (tds : List (TermDatum n))
    (nnls : Matrix (Fin tds.length) (Fin tds.length) ℝ → (Fin tds.length → ℝ) →
      (Fin tds.length → ℝ)) : Except String (List (PauliOp n × ℝ)) :=
  if (commMatrix tds).rank ≠ tds.length then
    Except.error "Matrix is not full rank, something went wrong!"
  else
    Except.ok (List.ofFn (fun i : Fin tds.length =>
      ((tds.get i).pauli, nnls (commMatrix tds) (fun j => -Real.log (tds.get j).fidelity) i)))

/-- A circuit instruction as `primitives/instruction.py` compares it: a name
and an ordered support (equality and hashing use exactly these two). -/
structure Inst where
  name : String
  support : List ℕ
deriving DecidableEq, Repr

/-- `Instruction.weight`: number of qubits in the support. -/
def Inst.weight (i : Inst) : ℕ := i.support.length

/-- `QiskitInstruction.ismeas`: the operation name is `"measure"`. -/
def Inst.ismeas (i : Inst) : Bool := i.name == "measure"

/-- Python `bool(layer_qubits.intersection(support))`: the two qubit lists
share an element. -/
def overlaps (lq sup : List ℕ) : Bool := lq.any (fun q => sup.contains q)

/-- One sweep of `_circuit_to_benchmark_layers` over the remaining
instructions, processed in order.  The placement test reads the blocking set
before the current instruction updates it, and a weight-2 instruction adds its
support to the blocking set whether or not it was placed (the two `if`
statements in the source are siblings, not nested).  Returns the placed
instructions and the still-remaining ones, each in their original order. -/
def sweepGo (lq : List ℕ) : List Inst → List Inst × List Inst
  | [] => ([], [])
  | i :: rest =>
      let res := sweepGo (if i.weight = 2 then lq ++ i.support else lq) rest
      if overlaps lq i.support then (res.1, i :: res.2) else (i :: res.1, res.2)

/-- The per-sweep placement decisions, in instruction order: `true` iff the
instruction joins the current layer. -/
def placedMask (lq : List ℕ) : List Inst → List Bool
  | [] => []
  | i :: rest =>
      (!overlaps lq i.support) ::
        placedMask (if i.weight = 2 then lq ++ i.support else lq) rest

/-- The union of the supports of the weight-2 instructions of a list, as used
for the blocking set. -/
def twoQubitSupport (l : List Inst) : List ℕ :=
  (l.filter (fun i => i.weight == 2)).flatMap (fun i => i.support)

/-- `CircuitLayer.separate_gates(weight)`: the instructions of the layer with
the given weight, in order. -/
def separateGates (layer : List Inst) (w : ℕ) : List Inst :=
  layer.filter (fun i => i.weight == w)

/-- The `while inst_list` loop of `_circuit_to_benchmark_layers`: sweep the
remaining instructions, keep the swept layer only when its Clifford part
(`separate_gates(2)`) is non-empty, and continue with the rest. -/
def layersLoop : List Inst → List (List Inst)
  | [] => []
  | i :: rest =>
      if separateGates (sweepGo [] (i :: rest)).1 2 ≠ [] then
        (sweepGo [] (i :: rest)).1 :: layersLoop (sweepGo [] (i :: rest)).2
      else layersLoop (sweepGo [] (i :: rest)).2
termination_by l => l.length
decreasing_by
  all_goals
    have key : ∀ (lq : List ℕ) (l : List Inst), ((sweepGo lq l).2).length ≤ l.length := by
      intro lq l
      induction l generalizing lq with
      | nil => simp [sweepGo]
      | cons j tail ih =>
          simp only [sweepGo]
          by_cases h : overlaps lq j.support
          · simpa [h] using Nat.succ_le_succ (ih _)
          · simpa [h] using Nat.le_succ_of_le (ih _)
  all_goals
    simp only [sweepGo, overlaps, List.any_nil, if_neg, Bool.false_eq_true,
      not_false_eq_true, List.length_cons]
  all_goals
    exact Nat.lt_succ_of_le (key _ _)

/-- `PERCircuit._circuit_to_benchmark_layers`: drop the measurement
instructions, then peel off benchmark layers sweep by sweep. -/
def circuitToBenchmarkLayers (qc : List Inst) : List (List Inst) :=
  layersLoop (qc.filter (fun i => !i.ismeas))

/-- A symbolic gate inserted by `BenchmarkInstance._instance`: a Pauli layer
or one copy of the self-adjoint Clifford layer. -/
inductive BOp (n : ℕ)
  | pauli (p : PauliOp n)
  | cliff

/-- Interpretation of one inserted gate in the normal-form group of words
`Pauli * Clifford^k` (phase ignored). -/
def BOp.toG {n : ℕ} : BOp n → PauliOp n × ℕ
  | .pauli p => (p, 0)
  | .cliff => (PauliOp.ID n, 1)

/-- Product in the normal-form group: with `conj` the (phaseless) conjugation
action of the Clifford layer, `(P, k) * (Q, m) = (P * conj^k Q, k + m)`,
reflecting `Cliff * Q = conj(Q) * Cliff`. -/
def gmul {n : ℕ} (conj : PauliOp n → PauliOp n) (a b : PauliOp n × ℕ) : PauliOp n × ℕ :=
  (pmulOp a.1 (conj^[a.2] b.1), a.2 + b.2)

/-- Multiply out a circuit-order list of inserted gates: each appended gate
acts on the left of the operator built so far. -/
def evalOps {n : ℕ} (conj : PauliOp n → PauliOp n) (ops : List (BOp n)) : PauliOp n × ℕ :=
  ops.foldl (fun acc op => gmul conj (BOp.toG op) acc) (PauliOp.ID n, 0)

/-- The noise-repetition loop of `BenchmarkInstance._instance`: at step `i`
draw `twirls i`, update `pauli_frame = conjugate(pauli_frame * twirl)`, and
append the twirl followed by the Clifford layer.  Returns the inserted gates
and the final frame. -/
def benchOps {n : ℕ} (conj : PauliOp n → PauliOp n) (twirls : ℕ → PauliOp n) :
    ℕ → List (BOp n) × PauliOp n
  | 0 => ([], PauliOp.ID n)
  | d + 1 =>
      ((benchOps conj twirls d).1 ++ [BOp.pauli (twirls d), BOp.cliff],
        conj (pmulOp (benchOps conj twirls d).2 (twirls d)))

/-- The running `pauli_frame` after `d` loop iterations. -/
def pauliFrame {n : ℕ} (conj : PauliOp n → PauliOp n) (twirls : ℕ → PauliOp n) (d : ℕ) :
    PauliOp n :=
  (benchOps conj twirls d).2

/-- All twirl/Clifford gates inserted by `_instance` at depth `d`, including
the closing `circ.add_pauli(pauli_frame)`. -/
def benchCircuitOps {n : ℕ} (conj : PauliOp n → PauliOp n) (twirls : ℕ → PauliOp n) (d : ℕ) :
    List (BOp n) :=
  (benchOps conj twirls d).1 ++ [BOp.pauli (pauliFrame conj twirls d)]

/-- The instructions of a layer selected by a placement mask (`true` keeps). -/
def maskKeep (l : List Inst) (m : List Bool) : List Inst :=
  ((l.zip m).filter (fun p => p.2)).map Prod.fst

/-- The instructions rejected by a placement mask. -/
def maskDrop (l : List Inst) (m : List Bool) : List Inst :=
  ((l.zip m).filter (fun p => !p.2)).map Prod.fst

/-- The multiplicative contribution of one learned rate `lam` to the scaling
overhead at strength `s`: `exp(2*(lam - s*lam))` when the term is suppressed
(`s*lam < lam`), else `1`. -/
noncomputable def scaleFactor (s lam : ℝ) : ℝ :=
  if s * lam < lam then Real.exp (2 * (lam - s * lam)) else 1

/-- Outcome of a Python call sequence: normal return, a `TypeError`, or an
explicitly raised `Exception`. -/
inductive PyResult
  | ok
  | typeError
  | exception (msg : String)
deriving DecidableEq, Repr

/-- The positional parameters of `LayerLearning.__init__` (after `self`). -/
def layerLearningInitParamList : List String := ["cliff_layer", "procspec"]

/-- The positional arguments `generate` passes to `LayerLearning(...)`. -/
def layerLearningInitArgList : List String := ["l", "samples", "single_samples", "depths"]

/-- The positional parameters of `LayerLearning.procedure` (after `self`). -/
def procedureParamList : List String := ["samples", "single_samples", "depths"]

/-- The positional argument `generate` passes to `learning.procedure(...)`. -/
def procedureArgList : List String := ["procspec"]

/-- A Python positional call binds iff the argument count matches the
parameter count (none of the parameters involved has a default). -/
def callOk (paramList argList : List String) : Bool :=
  paramList.length == argList.length

/-- Control flow of `SparsePauliTomographyExperiment.generate`: raise when
fewer than two depths are given; otherwise, for each stored layer profile,
construct `LayerLearning(l, samples, single_samples, depths)` and call
`learning.procedure(self._procspec)` — each call raising `TypeError` when its
arity does not match the callee. -/
def generateOutcome (numProfiles : ℕ) (depths : List ℕ) : PyResult :=
  if depths.length < 2 then
    PyResult.exception "Exponental fit required 3 or more depth data points."
  else if numProfiles = 0 then PyResult.ok
  else if !callOk layerLearningInitParamList layerLearningInitArgList then PyResult.typeError
  else if !callOk procedureParamList procedureArgList then PyResult.typeError
  else PyResult.ok

/-! ## Helper lemmas -/

theorem dictFind_isSome {α : Type} [DecidableEq α] (l : List (α × ℝ)) (k : α)
    (h : ∃ q ∈ l, q.1 = k) : (dictFind l k).isSome := by
  unfold dictFind
  obtain ⟨q, hq, hk⟩ := h
  have : ∃ x ∈ l.reverse, (fun q => decide (q.1 = k)) x = true := by
    exact ⟨q, List.mem_reverse.2 hq, by simp [hk]⟩
  rcases List.find?_isSome.2 this with h2
  rcases Option.isSome_iff_exists.1 h2 with ⟨x, hx⟩
  simp [hx]

theorem overheadLoop_eq {α : Type} [DecidableEq α] (nparams : List (α × ℝ)) :
    ∀ (l : List (α × ℝ)) (a : ℝ), (∀ pl ∈ l, (dictFind nparams pl.1).isSome) →
      overheadLoop nparams (some a) l =
        some (a * ((l.filter (fun pl => decide (dictGetD nparams pl.1 0 < pl.2))).map
          (fun pl => Real.exp (2 * (pl.2 - dictGetD nparams pl.1 0)))).prod) := by
  intro l
  induction l with
  | nil => intro a _; simp [overheadLoop]
  | cons pl rest ih =>
      intro a hcov
      have hsome : (dictFind nparams pl.1).isSome := hcov pl (List.mem_cons_self pl rest)
      rcases Option.isSome_iff_exists.1 hsome with ⟨phik, hfind⟩
      have hget : dictGetD nparams pl.1 0 = phik := by simp [dictGetD, hfind]
      have hrest : ∀ q ∈ rest, (dictFind nparams q.1).isSome := fun q hq =>
        hcov q (List.mem_cons_of_mem pl hq)
      by_cases hlt : phik < pl.2
      · have step : overheadLoop nparams (some a) (pl :: rest) =
            overheadLoop nparams (some (a * Real.exp (2 * (pl.2 - phik)))) rest := by
          simp [overheadLoop, hfind, hlt]
        have hfil : (pl :: rest).filter (fun pl => decide (dictGetD nparams pl.1 0 < pl.2))
            = pl :: rest.filter (fun pl => decide (dictGetD nparams pl.1 0 < pl.2)) := by
          rw [List.filter_cons]
          simp [hget, hlt]
        rw [step, ih _ hrest, hfil]
        simp only [List.map_cons, List.prod_cons, hget]
        rw [mul_assoc]
      · have step : overheadLoop nparams (some a) (pl :: rest) =
            overheadLoop nparams (some a) rest := by
          simp [overheadLoop, hfind, hlt]
        have hfil : (pl :: rest).filter (fun pl => decide (dictGetD nparams pl.1 0 < pl.2))
            = rest.filter (fun pl => decide (dictGetD nparams pl.1 0 < pl.2)) := by
          rw [List.filter_cons]
          simp [hget, hlt]
        rw [step, ih _ hrest, hfil]

theorem find_map_key {α : Type} [DecidableEq α] (f : α × ℝ → ℝ) :
    ∀ (l : List (α × ℝ)), (l.map Prod.fst).Nodup → ∀ pl ∈ l,
      (l.map (fun q => (q.1, f q))).find? (fun q => decide (q.1 = pl.1)) =
        some (pl.1, f pl) := by
  intro l
  induction l with
  | nil => intro _ pl h; exact absurd h (List.not_mem_nil pl)
  | cons q rest ih =>
      intro hnd pl hmem
      rw [List.map_cons] at hnd ⊢
      rcases List.nodup_cons.1 hnd with ⟨hq, hrest⟩
      by_cases hqk : q.1 = pl.1
      · have hpl : pl = q := by
          rcases List.mem_cons.1 hmem with h | h
          · exact h
          · exact absurd (hqk ▸ List.mem_map_of_mem Prod.fst h) hq
        subst hpl
        exact List.find?_cons_of_pos _ (by simp)
      · have hpl : pl ∈ rest := by
          rcases List.mem_cons.1 hmem with h | h
          · exact absurd (h ▸ rfl) hqk
          · exact h
        rw [List.find?_cons_of_neg _ (by simpa using hqk)]
        exact ih hrest pl hpl

theorem dictFind_map_self {α : Type} [DecidableEq α] (f : α × ℝ → ℝ) (l : List (α × ℝ))
    (hnd : (l.map Prod.fst).Nodup) (pl : α × ℝ) (hmem : pl ∈ l) :
    dictFind (l.map (fun q => (q.1, f q))) pl.1 = some (f pl) := by
  unfold dictFind
  rw [← List.map_reverse]
  have hnd2 : (l.reverse.map Prod.fst).Nodup := by
    rw [List.map_reverse]
    exact List.nodup_reverse.2 hnd
  rw [find_map_key f l.reverse hnd2 pl (List.mem_reverse.2 hmem)]
  rfl

theorem dictGetD_map_self {α : Type} [DecidableEq α] (f : α × ℝ → ℝ) (l : List (α × ℝ))
    (hnd : (l.map Prod.fst).Nodup) (pl : α × ℝ) (hmem : pl ∈ l) :
    dictGetD (l.map (fun q => (q.1, f q))) pl.1 0 = f pl := by
  rw [dictGetD, dictFind_map_self f l hnd pl hmem]
  rfl

theorem one_le_scaleFactor (s lam : ℝ) : 1 ≤ scaleFactor s lam := by
  unfold scaleFactor
  split
  · next h => exact Real.one_le_exp (by linarith)
  · exact le_refl 1

theorem scaleFactor_antitone_left (s1 s2 lam : ℝ) (hlam : 0 ≤ lam) (h12 : s1 ≤ s2) :
    scaleFactor s2 lam ≤ scaleFactor s1 lam := by
  by_cases c2 : s2 * lam < lam
  · have hmul : s1 * lam ≤ s2 * lam := mul_le_mul_of_nonneg_right h12 hlam
    have c1 : s1 * lam < lam := lt_of_le_of_lt hmul c2
    rw [scaleFactor, if_pos c2, scaleFactor, if_pos c1]
    exact Real.exp_le_exp.2 (by linarith)
  · rw [scaleFactor, if_neg c2]
    exact one_le_scaleFactor s1 lam

theorem scaleFactor_eq_one_of_one_le (s lam : ℝ) (hlam : 0 ≤ lam) (hs : 1 ≤ s) :
    scaleFactor s lam = 1 := by
  rw [scaleFactor, if_neg]
  intro hc
  nlinarith

theorem one_le_prod_of_one_le : ∀ (l : List ℝ), (∀ x ∈ l, 1 ≤ x) → 1 ≤ l.prod := by
  intro l
  induction l with
  | nil => intro _; simp
  | cons x rest ih =>
      intro h
      rw [List.prod_cons]
      have hx : 1 ≤ x := h x (List.mem_cons_self x rest)
      have hr : 1 ≤ rest.prod := ih (fun y hy => h y (List.mem_cons_of_mem x hy))
      nlinarith

theorem prod_le_prod_pointwise {α : Type} (f g : α → ℝ) :
    ∀ (l : List α), (∀ x ∈ l, 1 ≤ g x ∧ g x ≤ f x) →
      (l.map g).prod ≤ (l.map f).prod := by
  intro l
  induction l with
  | nil => intro _; simp
  | cons x rest ih =>
      intro h
      rcases h x (List.mem_cons_self x rest) with ⟨hg1, hgf⟩
      have hrest : ∀ y ∈ rest, 1 ≤ g y ∧ g y ≤ f y :=
        fun y hy => h y (List.mem_cons_of_mem x hy)
      have hgp : 1 ≤ (rest.map g).prod :=
        one_le_prod_of_one_le _ (by
          intro z hz
          rcases List.mem_map.1 hz with ⟨y, hy, rfl⟩
          exact (hrest y hy).1)
      simp only [List.map_cons, List.prod_cons]
      exact mul_le_mul hgf (ih hrest) (le_trans zero_le_one hgp)
        (le_trans zero_le_one (le_trans hg1 hgf))

theorem filter_prod_eq_scaleFactor_prod {α : Type} (s : ℝ) :
    ∀ (l : List (α × ℝ)),
      ((l.filter (fun pl => decide (s * pl.2 < pl.2))).map
        (fun pl => Real.exp (2 * (pl.2 - s * pl.2)))).prod =
      (l.map (fun pl => scaleFactor s pl.2)).prod := by
  intro l
  induction l with
  | nil => simp
  | cons pl rest ih =>
      by_cases h : s * pl.2 < pl.2
      · rw [List.filter_cons, if_pos (by simpa using h)]
        simp only [List.map_cons, List.prod_cons, ih]
        rw [scaleFactor, if_pos h]
      · rw [List.filter_cons, if_neg (by simpa using h)]
        simp only [List.map_cons, List.prod_cons, ih]
        rw [scaleFactor, if_neg h, one_mul]

/-- Under distinct terms, the overhead stored by `init_scaling(s)` is the
product over all terms of their scaling factors. -/
theorem overheadAt_eq_prod {α : Type} [DecidableEq α] (coeffs : List (α × ℝ))
    (hnd : (coeffs.map Prod.fst).Nodup) (s : ℝ) :
    overheadAt coeffs s = (coeffs.map (fun pl => scaleFactor s pl.2)).prod := by
  have hcov : ∀ pl ∈ coeffs,
      (dictFind (coeffs.map (fun q => (q.1, s * q.2))) pl.1).isSome := by
    intro pl hpl
    rw [dictFind_map_self (fun q => s * q.2) coeffs hnd pl hpl]
    rfl
  have hloop := overheadLoop_eq (coeffs.map (fun q => (q.1, s * q.2))) coeffs 1 hcov
  have hfil : coeffs.filter
        (fun pl => decide (dictGetD (coeffs.map (fun q => (q.1, s * q.2))) pl.1 0 < pl.2)) =
      coeffs.filter (fun pl => decide (s * pl.2 < pl.2)) := by
    apply List.filter_congr
    intro pl hpl
    rw [dictGetD_map_self (fun q => s * q.2) coeffs hnd pl hpl]
  unfold overheadAt scaledDist init_scaling init_tuning
  rw [hloop, hfil]
  simp only [Option.map_some', Option.getD_some, one_mul]
  rw [← filter_prod_eq_scaleFactor_prod s coeffs]
  apply congrArg
  apply List.map_congr_left
  intro pl hpl
  rw [dictGetD_map_self (fun q => s * q.2) coeffs hnd pl ((List.mem_filter.1 hpl).1)]

/-! ## C1: the derived distribution and overhead of `_init_tuning` -/

/-- C1.  For every noise model with learned pairs `(term_k, lambda_k)` and any
tuning-target dict covering every term (in particular the one `init_scaling`
builds), `_init_tuning` derives the distribution
`p_k = (1/2)(1 - exp(-2|phi_k - lambda_k|))` with sign bit `1` exactly when
`phi_k < lambda_k`, and the overhead `prod exp(2(lambda_k - phi_k))` over
exactly the suppressed terms (`phi_k < lambda_k`), which is `1` when no term
is suppressed. -/
theorem init_tuning_distribution_and_overhead {α : Type} [DecidableEq α]
    (coeffs nparams : List (α × ℝ))
    (hcov : ∀ pl ∈ coeffs, ∃ q ∈ nparams, q.1 = pl.1) :
    init_tuning coeffs nparams = some
      (coeffs.map (fun pl =>
        (pl.1, (1 / 2) * (1 - Real.exp (-2 * |dictGetD nparams pl.1 0 - pl.2|)),
          if dictGetD nparams pl.1 0 < pl.2 then 1 else 0)),
       ((coeffs.filter (fun pl => decide (dictGetD nparams pl.1 0 < pl.2))).map
          (fun pl => Real.exp (2 * (pl.2 - dictGetD nparams pl.1 0)))).prod) ∧
    ((∀ pl ∈ coeffs, ¬ dictGetD nparams pl.1 0 < pl.2) →
      ((coeffs.filter (fun pl => decide (dictGetD nparams pl.1 0 < pl.2))).map
          (fun pl => Real.exp (2 * (pl.2 - dictGetD nparams pl.1 0)))).prod = 1) := by
  constructor
  · have hloop := overheadLoop_eq nparams coeffs 1
      (fun pl hpl => dictFind_isSome nparams pl.1 (hcov pl hpl))
    unfold init_tuning
    rw [hloop]
    simp [tuningProbs, one_mul]
  · intro hno
    have : coeffs.filter (fun pl => decide (dictGetD nparams pl.1 0 < pl.2)) = [] := by
      rw [List.filter_eq_nil_iff]
      intro pl hpl
      simpa using hno pl hpl
    rw [this]
    simp

/-- Witness for C1 at a concrete model with one term of rate `1` and
target `2`. -/
theorem init_tuning_distribution_and_overhead_w :
    init_tuning [((0 : ℕ), (1 : ℝ))] [((0 : ℕ), (2 : ℝ))] = some
      ([((0 : ℕ), (1 : ℝ))].map (fun pl =>
        (pl.1, (1 / 2) * (1 - Real.exp (-2 * |dictGetD [((0 : ℕ), (2 : ℝ))] pl.1 0 - pl.2|)),
          if dictGetD [((0 : ℕ), (2 : ℝ))] pl.1 0 < pl.2 then 1 else 0)),
       (([((0 : ℕ), (1 : ℝ))].filter
            (fun pl => decide (dictGetD [((0 : ℕ), (2 : ℝ))] pl.1 0 < pl.2))).map
          (fun pl => Real.exp (2 * (pl.2 - dictGetD [((0 : ℕ), (2 : ℝ))] pl.1 0)))).prod) ∧
    ((∀ pl ∈ [((0 : ℕ), (1 : ℝ))], ¬ dictGetD [((0 : ℕ), (2 : ℝ))] pl.1 0 < pl.2) →
      (([((0 : ℕ), (1 : ℝ))].filter
            (fun pl => decide (dictGetD [((0 : ℕ), (2 : ℝ))] pl.1 0 < pl.2))).map
          (fun pl => Real.exp (2 * (pl.2 - dictGetD [((0 : ℕ), (2 : ℝ))] pl.1 0)))).prod = 1) :=
  init_tuning_distribution_and_overhead [((0 : ℕ), (1 : ℝ))] [((0 : ℕ), (2 : ℝ))]
    (by
      intro pl hpl
      rw [List.mem_singleton] at hpl
      subst hpl
      exact ⟨((0 : ℕ), (2 : ℝ)), List.mem_singleton.2 rfl, rfl⟩)

/-! ## C8: overhead grows with the distance of the strength from 1 -/

/-- C8.  For a noise model with distinct terms and non-negative learned
coefficients, the overhead derived by `init_scaling` is non-decreasing as the
strength moves away from `1`: antitone on strengths `<= 1` and monotone on
strengths `>= 1` (where it is constantly `1`). -/
theorem overhead_monotone_in_strength_distance {α : Type} [DecidableEq α]
    (coeffs : List (α × ℝ)) (hnd : (coeffs.map Prod.fst).Nodup)
    (hnn : ∀ pl ∈ coeffs, 0 ≤ pl.2) (s1 s2 : ℝ) :
    (s1 ≤ s2 → s2 ≤ 1 → overheadAt coeffs s2 ≤ overheadAt coeffs s1) ∧
    (1 ≤ s1 → s1 ≤ s2 → overheadAt coeffs s1 ≤ overheadAt coeffs s2) := by
  constructor
  · intro h12 _
    rw [overheadAt_eq_prod coeffs hnd s1, overheadAt_eq_prod coeffs hnd s2]
    exact prod_le_prod_pointwise _ _ coeffs (fun pl hpl =>
      ⟨one_le_scaleFactor s2 pl.2, scaleFactor_antitone_left s1 s2 pl.2 (hnn pl hpl) h12⟩)
  · intro h1 h12
    rw [overheadAt_eq_prod coeffs hnd s1, overheadAt_eq_prod coeffs hnd s2]
    have e1 : ∀ s : ℝ, 1 ≤ s → (coeffs.map (fun pl => scaleFactor s pl.2)).prod = 1 := by
      intro s hs
      apply List.prod_eq_one
      intro x hx
      rcases List.mem_map.1 hx with ⟨pl, hpl, rfl⟩
      exact scaleFactor_eq_one_of_one_le s pl.2 (hnn pl hpl) hs
    rw [e1 s1 h1, e1 s2 (le_trans h1 h12)]

/-- Witness for C8 on a one-term model with rate `1`, on both sides of
strength `1`. -/
theorem overhead_monotone_in_strength_distance_w :
    overheadAt [((0 : ℕ), (1 : ℝ))] (3 / 4) ≤ overheadAt [((0 : ℕ), (1 : ℝ))] (1 / 2) ∧
    overheadAt [((0 : ℕ), (1 : ℝ))] (3 / 2) ≤ overheadAt [((0 : ℕ), (1 : ℝ))] 2 :=
  ⟨(overhead_monotone_in_strength_distance [((0 : ℕ), (1 : ℝ))] (by simp)
      (by
        intro pl hpl
        rw [List.mem_singleton] at hpl
        subst hpl
        norm_num) (1 / 2) (3 / 4)).1 (by norm_num) (by norm_num),
   (overhead_monotone_in_strength_distance [((0 : ℕ), (1 : ℝ))] (by simp)
      (by
        intro pl hpl
        rw [List.mem_singleton] at hpl
        subst hpl
        norm_num) (3 / 2) 2).2 (by norm_num) (by norm_num)⟩

/-! ## C7: behaviour of the scaled model at the extreme strengths -/

theorem nmSampleGo_const {n : ℕ} (draws : ℕ → ℝ) (hdr : ∀ i, 0 ≤ draws i) :
    ∀ (l : List (PauliOp n × ℝ × ℕ)) (k : ℕ) (acc : PauliOp n × ℕ),
      (∀ t ∈ l, t.2.1 = 0) → nmSampleGo draws k acc l = acc := by
  intro l
  induction l with
  | nil => intro k acc _; rfl
  | cons t rest ih =>
      intro k acc h0
      have ht : t.2.1 = 0 := h0 t (List.mem_cons_self t rest)
      have hnf : ¬ draws k < t.2.1 := by
        rw [ht]
        exact not_lt.2 (hdr k)
      show nmSampleGo draws (k + 1)
          (if draws k < t.2.1 then (pmulOp acc.1 t.1, acc.2 ^^^ t.2.2) else acc) rest = acc
      rw [if_neg hnf]
      exact ih (k + 1) acc (fun q hq => h0 q (List.mem_cons_of_mem t hq))

/-- Counterexample to C7 as stated: a single-term model with learned rate `1`
scaled by `init_scaling(0)` derives firing probability
`(1/2)(1 - exp(-2)) ≠ 0` with sign bit `1`, and overhead `exp 2 ≠ 1`. -/
theorem init_scaling_zero_strength_cex :
    (scaledDist [(((fun _ => PChar.Z) : PauliOp 1), (1 : ℝ))] 0).1 =
      [(((fun _ => PChar.Z) : PauliOp 1), (1 / 2) * (1 - Real.exp (-2)), 1)] ∧
    (1 / 2 : ℝ) * (1 - Real.exp (-2)) ≠ 0 ∧
    (scaledDist [(((fun _ => PChar.Z) : PauliOp 1), (1 : ℝ))] 0).2 = Real.exp 2 ∧
    Real.exp 2 ≠ 1 := by
  have hfind : dictFind [(((fun _ => PChar.Z) : PauliOp 1), (0 : ℝ) * 1)]
      ((fun _ => PChar.Z) : PauliOp 1) = some ((0 : ℝ) * 1) := by
    unfold dictFind
    simp
  have hexp : Real.exp (-2) < 1 := by
    have h := Real.exp_lt_exp.2 (show (-2 : ℝ) < 0 by norm_num)
    rwa [Real.exp_zero] at h
  refine ⟨?_, ?_, ?_, ?_⟩
  · simp only [scaledDist, init_scaling, init_tuning, tuningProbs, overheadLoop,
      List.map_cons, List.map_nil, dictGetD, hfind]
    norm_num
  · intro h
    nlinarith
  · simp only [scaledDist, init_scaling, init_tuning, tuningProbs, overheadLoop,
      List.map_cons, List.map_nil, hfind]
    norm_num
  · intro h
    have h2 := (Real.exp_eq_one_iff 2).1 h
    norm_num at h2

/-- C7 amended (strength `1` instead of strength `0`).  For a model with
distinct terms scaled by `init_scaling(1)`, every firing probability and every
sign bit is `0`, the overhead is exactly `1`, and every `sample` call returns
the identity operator with sign `0`. -/
theorem init_scaling_unit_strength_identity {n : ℕ} (coeffs : List (PauliOp n × ℝ))
    (hnd : (coeffs.map Prod.fst).Nodup) (draws : ℕ → ℝ) (hdr : ∀ i, 0 ≤ draws i) :
    init_scaling coeffs 1 = some (coeffs.map (fun pl => (pl.1, (0 : ℝ), (0 : ℕ))), 1) ∧
    nmSample (coeffs.map (fun pl => (pl.1, (0 : ℝ), (0 : ℕ)))) draws = (PauliOp.ID n, 0) := by
  constructor
  · have hcov : ∀ pl ∈ coeffs,
        (dictFind (coeffs.map (fun q => (q.1, (1 : ℝ) * q.2))) pl.1).isSome := by
      intro pl hpl
      rw [dictFind_map_self (fun q => (1 : ℝ) * q.2) coeffs hnd pl hpl]
      rfl
    have hloop := overheadLoop_eq (coeffs.map (fun q => (q.1, (1 : ℝ) * q.2))) coeffs 1 hcov
    have hfil : coeffs.filter (fun pl =>
        decide (dictGetD (coeffs.map (fun q => (q.1, (1 : ℝ) * q.2))) pl.1 0 < pl.2)) = [] := by
      rw [List.filter_eq_nil_iff]
      intro pl hpl
      rw [dictGetD_map_self (fun q => (1 : ℝ) * q.2) coeffs hnd pl hpl]
      simp
    have hprobs : tuningProbs coeffs (coeffs.map (fun pl => (pl.1, (1 : ℝ) * pl.2))) =
        coeffs.map (fun pl => (pl.1, (0 : ℝ), (0 : ℕ))) := by
      unfold tuningProbs
      apply List.map_congr_left
      intro pl hpl
      rw [dictGetD_map_self (fun q => (1 : ℝ) * q.2) coeffs hnd pl hpl]
      simp
    unfold init_scaling init_tuning
    rw [hloop, hfil, hprobs]
    simp
  · apply nmSampleGo_const draws hdr
    intro t ht
    rcases List.mem_map.1 ht with ⟨pl, _, rfl⟩
    rfl

/-- Witness for C7's amended statement on a one-term model. -/
theorem init_scaling_unit_strength_identity_w :
    init_scaling [(((fun _ => PChar.Z) : PauliOp 1), (1 : ℝ))] 1 =
      some ([(((fun _ => PChar.Z) : PauliOp 1), (1 : ℝ))].map
        (fun pl => (pl.1, (0 : ℝ), (0 : ℕ))), 1) ∧
    nmSample ([(((fun _ => PChar.Z) : PauliOp 1), (1 : ℝ))].map
      (fun pl => (pl.1, (0 : ℝ), (0 : ℕ)))) (fun _ => 1 / 2) = (PauliOp.ID 1, 0) :=
  init_scaling_unit_strength_identity [(((fun _ => PChar.Z) : PauliOp 1), (1 : ℝ))]
    (by simp) (fun _ => 1 / 2) (fun i => by norm_num)

/-! ## C9: the clamping direction of `fit_single` -/

/-- Counterexample to C9 as stated: with one single-depth expectation `1`,
SPAM coefficient `1` and paired fidelity `1/2`, the raw estimate `1` exceeds
the square `1/4` of the paired fidelity, yet `fit_single` stores it unchanged
with no warning: the stored fidelity does exceed `(paired fidelity)^2` and no
downward clamp happens. -/
theorem fit_single_clamp_direction_cex :
    fit_single [1] 1 1 (1 / 2) = (1, false) ∧ ((1 : ℝ) / 2) ^ 2 < 1 := by
  constructor
  · unfold fit_single
    norm_num
  · norm_num

/-- C9 amended.  `fit_single` stores
`max (raw estimate) ((paired fidelity)^2)` — the raw estimate (mean
single-depth expectation divided by the SPAM coefficient) is clamped *up* to
`(paired fidelity)^2`, with a warning exactly when the raw estimate falls
*below* that bound; in particular the stored fidelity never falls below
`(paired fidelity)^2`. -/
theorem fit_single_clamped_below (single_vals : List ℝ) (single_count : ℕ) (spam fid : ℝ) :
    fit_single single_vals single_count spam fid =
      (max (|single_vals.sum / (single_count : ℝ)| / spam) (fid ^ 2),
        decide (|single_vals.sum / (single_count : ℝ)| / spam < fid ^ 2)) ∧
    fid ^ 2 ≤ (fit_single single_vals single_count spam fid).1 := by
  have hmain : fit_single single_vals single_count spam fid =
      (max (|single_vals.sum / (single_count : ℝ)| / spam) (fid ^ 2),
        decide (|single_vals.sum / (single_count : ℝ)| / spam < fid ^ 2)) := by
    unfold fit_single
    by_cases h : fid ^ 2 > |single_vals.sum / (single_count : ℝ)| / spam
    · rw [if_pos h]
      rw [max_eq_right (le_of_lt h)]
      simp [h]
    · rw [if_neg h]
      rw [max_eq_left (not_lt.1 h)]
      simp [not_lt.1 h, not_lt.2 (not_lt.1 h)]
  exact ⟨hmain, by rw [hmain]; exact le_max_right _ _⟩

/-! ## C10: `generate` crashes on the `LayerLearning` call -/

/-- C10.  With at least one layer profile and at least two depth points,
`generate` raises a `TypeError`: it calls `LayerLearning` with four positional
arguments while `LayerLearning.__init__` accepts only `(cliff_layer,
procspec)` (and the later `procedure(procspec)` call is also mis-matched). -/
theorem generate_layer_learning_arity_type_error (numProfiles : ℕ) (depths : List ℕ)
    (hp : 1 ≤ numProfiles) (hd : 2 ≤ depths.length) :
    generateOutcome numProfiles depths = PyResult.typeError := by
  unfold generateOutcome
  rw [if_neg (by omega)]
  rw [if_neg (by omega)]
  rw [if_pos (by decide)]

/-- Witness for C10 with one profile and two depths. -/
theorem generate_layer_learning_arity_type_error_w :
    generateOutcome 1 [2, 4] = PyResult.typeError :=
  generate_layer_learning_arity_type_error 1 [2, 4] (by norm_num) (by norm_num)

/-! ## C2: the rank gate and non-negativity in `nnls_fit` -/

/-- C2.  `nnls_fit` raises its fatal error exactly when the matrix `M1 + M2`
built from the anticommutation structure of the fitted terms and their
conjugate-or-self pairs has rank strictly below the number of terms; when the
rank is full it returns a noise model pairing each term with the corresponding
entry of the NNLS solution of `(M1+M2) coeffs = -log(fidelities)`, which is
non-negative in every coordinate. -/
theorem nnls_fit_rank_gate {n : ℕ} (tds : List (TermDatum n))
    (nnls : Matrix (Fin tds.length) (Fin tds.length) ℝ → (Fin tds.length → ℝ) →
      (Fin tds.length → ℝ))
    (hnnls : ∀ A b i, 0 ≤ nnls A b i) :
    ((∃ msg, nnls_fit tds nnls = Except.error msg) ↔
        (commMatrix tds).rank < tds.length) ∧
    (∀ cs, nnls_fit tds nnls = Except.ok cs → ∀ pr ∈ cs, 0 ≤ pr.2) := by
  have hle : (commMatrix tds).rank ≤ tds.length := by
    have h := Matrix.rank_le_card_width (commMatrix tds)
    simpa using h
  by_cases h : (commMatrix tds).rank ≠ tds.length
  · constructor
    · constructor
      · intro _
        exact lt_of_le_of_ne hle h
      · intro _
        refine ⟨"Matrix is not full rank, something went wrong!", ?_⟩
        unfold nnls_fit
        rw [if_pos h]
    · intro cs hcs
      unfold nnls_fit at hcs
      rw [if_pos h] at hcs
      cases hcs
  · push_neg at h
    constructor
    · constructor
      · rintro ⟨msg, hmsg⟩
        unfold nnls_fit at hmsg
        rw [if_neg (by simp [h])] at hmsg
        cases hmsg
      · intro hlt
        exact absurd h (ne_of_lt hlt)
    · intro cs hcs
      unfold nnls_fit at hcs
      rw [if_neg (by simp [h])] at hcs
      cases hcs
      intro pr hpr
      rcases (List.mem_ofFn _ pr).1 hpr with ⟨i, hi⟩
      rw [← hi]
      exact hnnls _ _ i

/-- Witness for C2 on a one-term data set with the zero solver. -/
theorem nnls_fit_rank_gate_w :
    ((∃ msg, nnls_fit [(⟨(fun _ => PChar.Z), (fun _ => PChar.Z), 1⟩ : TermDatum 1)] (fun _ _ _ => (0 : ℝ)) = Except.error msg) ↔
        (commMatrix [(⟨(fun _ => PChar.Z), (fun _ => PChar.Z), 1⟩ : TermDatum 1)]).rank <
          [(⟨(fun _ => PChar.Z), (fun _ => PChar.Z), 1⟩ : TermDatum 1)].length) ∧
    (∀ cs, nnls_fit [(⟨(fun _ => PChar.Z), (fun _ => PChar.Z), 1⟩ : TermDatum 1)] (fun _ _ _ => (0 : ℝ)) = Except.ok cs →
        ∀ pr ∈ cs, 0 ≤ pr.2) :=
  nnls_fit_rank_gate [(⟨(fun _ => PChar.Z), (fun _ => PChar.Z), 1⟩ : TermDatum 1)] (fun _ _ _ => (0 : ℝ)) (fun _ _ _ => le_refl 0)

/-! ## C6: sign, overhead and adjusted expectation of a `PERInstance` -/

theorem perAccumGo_spec {n : ℕ} (s : ℝ) (draws : ℕ → ℕ → ℝ) :
    ∀ (layers : List (List (PauliOp n × ℝ))) (k : ℕ) (a : ℕ) (b : ℝ),
      perAccumGo s draws k (a, b) layers =
        (((layers.enumFrom k).map
            (fun it => layerSampleSgn it.2 s (draws it.1))).foldl (fun x y => x ^^^ y) a,
          b * (layers.map (fun L => overheadAt L s)).prod) := by
  intro layers
  induction layers with
  | nil => intro k a b; simp [perAccumGo]
  | cons L rest ih =>
      intro k a b
      show perAccumGo s draws (k + 1)
          (a ^^^ layerSampleSgn L s (draws k), b * overheadAt L s) rest = _
      rw [ih]
      simp only [List.enumFrom, List.map_cons, List.foldl_cons, List.prod_cons]
      rw [mul_assoc]

/-- C6.  After construction, a `PERInstance`'s total sign is the XOR of the
per-layer noise-model sample signs, its total overhead is the product of the
per-layer overheads at the configured strength, and for every Pauli its
adjusted expectation is the raw expectation times
`overhead * (-1)^sgn_tot`. -/
theorem per_instance_sign_overhead_adjusted {n : ℕ}
    (layers : List (List (PauliOp n × ℝ))) (s : ℝ) (draws : ℕ → ℕ → ℝ)
    (result : List (List Bool × ℕ)) (ro : List Bool) (pauli : PauliOp n) :
    (mkPERInst layers s draws result ro).sgn_tot =
      (layers.enum.map (fun it => layerSampleSgn it.2 s (draws it.1))).foldl
        (fun a b => a ^^^ b) 0 ∧
    (mkPERInst layers s draws result ro).overhead =
      (layers.map (fun L => overheadAt L s)).prod ∧
    get_adjusted_expectation (mkPERInst layers s draws result ro) pauli =
      get_expectation (mkPERInst layers s draws result ro) pauli *
        (layers.map (fun L => overheadAt L s)).prod *
        (-1 : ℝ) ^ ((layers.enum.map (fun it => layerSampleSgn it.2 s (draws it.1))).foldl
          (fun a b => a ^^^ b) 0) := by
  have hacc : perAccum layers s draws =
      ((layers.enum.map (fun it => layerSampleSgn it.2 s (draws it.1))).foldl
          (fun a b => a ^^^ b) 0,
        (layers.map (fun L => overheadAt L s)).prod) := by
    have h := perAccumGo_spec s draws layers 0 0 1
    rw [perAccum, h, one_mul]
    rfl
  refine ⟨?_, ?_, ?_⟩
  · show (perAccum layers s draws).1 = _
    rw [hacc]
  · show (perAccum layers s draws).2 = _
    rw [hacc]
  · show get_expectation _ pauli * (perAccum layers s draws).2 *
        (-1 : ℝ) ^ (perAccum layers s draws).1 = _
    rw [hacc]

/-! ## C5: the benchmark-instance twirl frame telescopes to the identity -/

theorem pchar_mul_I_left : ∀ p : PChar, PChar.mul PChar.I p = p := by
  intro p
  cases p <;> rfl

theorem pchar_mul_self : ∀ p : PChar, PChar.mul p p = PChar.I := by
  intro p
  cases p <;> rfl

theorem pchar_mul_comm : ∀ p q : PChar, PChar.mul p q = PChar.mul q p := by
  intro p q
  cases p <;> cases q <;> rfl

theorem pmulOp_ID_left {n : ℕ} (a : PauliOp n) : pmulOp (PauliOp.ID n) a = a :=
  funext (fun i => pchar_mul_I_left (a i))

theorem pmulOp_self {n : ℕ} (a : PauliOp n) : pmulOp a a = PauliOp.ID n :=
  funext (fun i => pchar_mul_self (a i))

theorem pmulOp_comm {n : ℕ} (a b : PauliOp n) : pmulOp a b = pmulOp b a :=
  funext (fun i => pchar_mul_comm (a i) (b i))

theorem conj_ID {n : ℕ} (conj : PauliOp n → PauliOp n)
    (hconj : ∀ a b, conj (pmulOp a b) = pmulOp (conj a) (conj b)) :
    conj (PauliOp.ID n) = PauliOp.ID n := by
  have h := hconj (PauliOp.ID n) (PauliOp.ID n)
  rw [pmulOp_ID_left] at h
  rw [pmulOp_self] at h
  exact h

theorem evalOps_benchOps {n : ℕ} (conj : PauliOp n → PauliOp n) (twirls : ℕ → PauliOp n) :
    ∀ d : ℕ, evalOps conj (benchOps conj twirls d).1 = ((benchOps conj twirls d).2, d) := by
  intro d
  induction d with
  | zero => rfl
  | succ d ih =>
      show evalOps conj
          ((benchOps conj twirls d).1 ++ [BOp.pauli (twirls d), BOp.cliff]) = _
      unfold evalOps at ih ⊢
      rw [List.foldl_append, ih]
      simp only [List.foldl_cons, List.foldl_nil]
      show gmul conj (BOp.toG BOp.cliff)
          (gmul conj (BOp.toG (BOp.pauli (twirls d))) ((benchOps conj twirls d).2, d)) = _
      unfold gmul BOp.toG
      simp only [Function.iterate_zero_apply, Function.iterate_one]
      rw [pmulOp_ID_left, zero_add, pmulOp_comm (twirls d) ((benchOps conj twirls d).2)]
      show (conj (pmulOp (benchOps conj twirls d).2 (twirls d)), 1 + d) = _
      rw [Nat.add_comm 1 d]
      rfl

theorem evalOps_benchCircuit {n : ℕ} (conj : PauliOp n → PauliOp n)
    (twirls : ℕ → PauliOp n) (d : ℕ) :
    evalOps conj (benchCircuitOps conj twirls d) = (PauliOp.ID n, d) := by
  unfold benchCircuitOps
  have h := evalOps_benchOps conj twirls d
  unfold evalOps at h ⊢
  rw [List.foldl_append, h]
  simp only [List.foldl_cons, List.foldl_nil]
  show gmul conj (BOp.toG (BOp.pauli (pauliFrame conj twirls d)))
      ((benchOps conj twirls d).2, d) = _
  unfold gmul BOp.toG pauliFrame
  simp only [Function.iterate_zero_apply]
  rw [pmulOp_self, zero_add]

theorem foldl_replicate_cliff {n : ℕ} (conj : PauliOp n → PauliOp n)
    (hid : conj (PauliOp.ID n) = PauliOp.ID n) :
    ∀ (d k : ℕ),
      List.foldl (fun acc op => gmul conj (BOp.toG op) acc) (PauliOp.ID n, k)
        (List.replicate d (BOp.cliff : BOp n)) = (PauliOp.ID n, k + d) := by
  intro d
  induction d with
  | zero => intro k; rfl
  | succ d ih =>
      intro k
      rw [List.replicate_succ, List.foldl_cons]
      show List.foldl _ (gmul conj (BOp.toG (BOp.cliff : BOp n)) (PauliOp.ID n, k)) _ = _
      have hstep : gmul conj (BOp.toG (BOp.cliff : BOp n)) (PauliOp.ID n, k) =
          (PauliOp.ID n, k + 1) := by
        unfold gmul BOp.toG
        simp only [Function.iterate_one]
        rw [pmulOp_ID_left, hid, Nat.add_comm 1 k]
      rw [hstep, ih (k + 1)]
      rw [Nat.add_assoc, Nat.add_comm 1 d]

/-- C5.  In `BenchmarkInstance._instance`, after each loop iteration the
running Pauli frame is the Clifford conjugate of (previous frame times that
iteration's twirl); and, with phases ignored and the Clifford conjugation a
homomorphism of the phaseless Pauli group, the inserted twirls, the `d`
Clifford layers, and the closing frame multiply out to the normal form
`("I"*n) * Cliff^d` — the same operator as `d` bare repetitions of the
Clifford layer, so the net effect of all twirls is the identity. -/
theorem benchmark_instance_frame_telescope {n : ℕ} (conj : PauliOp n → PauliOp n)
    (twirls : ℕ → PauliOp n) (d i : ℕ)
    (hconj : ∀ a b, conj (pmulOp a b) = pmulOp (conj a) (conj b)) :
    pauliFrame conj twirls (i + 1) = conj (pmulOp (pauliFrame conj twirls i) (twirls i)) ∧
    evalOps conj (benchCircuitOps conj twirls d) = (PauliOp.ID n, d) ∧
    evalOps conj (benchCircuitOps conj twirls d) =
      evalOps conj (List.replicate d (BOp.cliff : BOp n)) := by
  refine ⟨rfl, evalOps_benchCircuit conj twirls d, ?_⟩
  rw [evalOps_benchCircuit conj twirls d]
  unfold evalOps
  rw [foldl_replicate_cliff conj (conj_ID conj hconj) d 0, Nat.zero_add]

/-- Witness for C5 with the identity conjugation, constant `X` twirls and
depth `2`. -/
theorem benchmark_instance_frame_telescope_w :
    pauliFrame (fun p : PauliOp 1 => p) (fun _ => (fun _ => PChar.X : PauliOp 1)) (0 + 1) =
      (fun p : PauliOp 1 => p)
        (pmulOp (pauliFrame (fun p : PauliOp 1 => p)
            (fun _ => (fun _ => PChar.X : PauliOp 1)) 0)
          ((fun _ => (fun _ => PChar.X : PauliOp 1)) 0)) ∧
    evalOps (fun p : PauliOp 1 => p)
        (benchCircuitOps (fun p : PauliOp 1 => p)
          (fun _ => (fun _ => PChar.X : PauliOp 1)) 2) = (PauliOp.ID 1, 2) ∧
    evalOps (fun p : PauliOp 1 => p)
        (benchCircuitOps (fun p : PauliOp 1 => p)
          (fun _ => (fun _ => PChar.X : PauliOp 1)) 2) =
      evalOps (fun p : PauliOp 1 => p) (List.replicate 2 (BOp.cliff : BOp 1)) :=
  benchmark_instance_frame_telescope (fun p : PauliOp 1 => p)
    (fun _ => (fun _ => PChar.X : PauliOp 1)) 2 0 (fun _ _ => rfl)

/-! ## C3 and C4: the layer-partitioning sweep -/

theorem overlaps_nil (sup : List ℕ) : overlaps [] sup = false := rfl

theorem overlaps_append (a b sup : List ℕ) :
    overlaps (a ++ b) sup = (overlaps a sup || overlaps b sup) := by
  simp [overlaps, List.any_append]

theorem twoQubitSupport_cons (i : Inst) (l : List Inst) :
    twoQubitSupport (i :: l) =
      (if i.weight = 2 then i.support else []) ++ twoQubitSupport l := by
  unfold twoQubitSupport
  rw [List.filter_cons]
  by_cases hw : i.weight = 2
  · simp [hw]
  · simp [hw]

theorem maskKeep_cons (i : Inst) (l : List Inst) (b : Bool) (m : List Bool) :
    maskKeep (i :: l) (b :: m) = if b then i :: maskKeep l m else maskKeep l m := by
  cases b <;> simp [maskKeep]

theorem maskDrop_cons (i : Inst) (l : List Inst) (b : Bool) (m : List Bool) :
    maskDrop (i :: l) (b :: m) = if b then maskDrop l m else i :: maskDrop l m := by
  cases b <;> simp [maskDrop]

theorem sweepGo_eq_mask : ∀ (l : List Inst) (lq : List ℕ),
    sweepGo lq l = (maskKeep l (placedMask lq l), maskDrop l (placedMask lq l)) := by
  intro l
  induction l with
  | nil => intro lq; simp [sweepGo, placedMask, maskKeep, maskDrop]
  | cons i rest ih =>
      intro lq
      show (if overlaps lq i.support then _ else _) = _
      rw [ih (if i.weight = 2 then lq ++ i.support else lq)]
      by_cases h : overlaps lq i.support
      · rw [if_pos h]
        simp [placedMask, maskKeep_cons, maskDrop_cons, h]
      · rw [if_neg h]
        simp only [Bool.not_eq_true] at h
        simp [placedMask, maskKeep_cons, maskDrop_cons, h]

theorem placedMask_getD : ∀ (l : List Inst) (lq : List ℕ) (k : ℕ), k < l.length →
    (placedMask lq l).getD k true =
      !overlaps (lq ++ twoQubitSupport (l.take k)) ((l.getD k ⟨"", []⟩).support) := by
  intro l
  induction l with
  | nil => intro lq k hk; exact absurd hk (by simp)
  | cons i rest ih =>
      intro lq k hk
      cases k with
      | zero =>
          simp [placedMask, twoQubitSupport]
      | succ k =>
          have hk2 : k < rest.length := Nat.lt_of_succ_lt_succ hk
          have hrec := ih (if i.weight = 2 then lq ++ i.support else lq) k hk2
          show (placedMask (if i.weight = 2 then lq ++ i.support else lq) rest).getD k true = _
          rw [hrec, List.take_succ_cons, twoQubitSupport_cons]
          by_cases hw : i.weight = 2
          · rw [if_pos hw, if_pos hw, List.append_assoc]
            rfl
          · rw [if_neg hw, if_neg hw, List.nil_append]
            rfl

theorem sweepGo_mem : ∀ (l : List Inst) (lq : List ℕ),
    (∀ x ∈ (sweepGo lq l).1, x ∈ l) ∧ (∀ x ∈ (sweepGo lq l).2, x ∈ l) := by
  intro l
  induction l with
  | nil => intro lq; simp [sweepGo]
  | cons i rest ih =>
      intro lq
      have ih2 := ih (if i.weight = 2 then lq ++ i.support else lq)
      have hshape : sweepGo lq (i :: rest) =
          (if overlaps lq i.support then
            ((sweepGo (if i.weight = 2 then lq ++ i.support else lq) rest).1,
              i :: (sweepGo (if i.weight = 2 then lq ++ i.support else lq) rest).2)
          else
            (i :: (sweepGo (if i.weight = 2 then lq ++ i.support else lq) rest).1,
              (sweepGo (if i.weight = 2 then lq ++ i.support else lq) rest).2)) := rfl
      rw [hshape]
      by_cases h : overlaps lq i.support
      · rw [if_pos h]
        constructor
        · intro x hx
          exact List.mem_cons_of_mem i (ih2.1 x hx)
        · intro x hx
          rcases List.mem_cons.1 hx with rfl | hx2
          · exact List.mem_cons_self _ _
          · exact List.mem_cons_of_mem i (ih2.2 x hx2)
      · rw [if_neg h]
        constructor
        · intro x hx
          rcases List.mem_cons.1 hx with rfl | hx2
          · exact List.mem_cons_self _ _
          · exact List.mem_cons_of_mem i (ih2.1 x hx2)
        · intro x hx
          exact List.mem_cons_of_mem i (ih2.2 x hx)

theorem sweepGo_placed_avoid : ∀ (l : List Inst) (lq : List ℕ) (x : Inst),
    x ∈ (sweepGo lq l).1 → overlaps lq x.support = false := by
  intro l
  induction l with
  | nil => intro lq x hx; simp [sweepGo] at hx
  | cons i rest ih =>
      intro lq x hx
      have hsub : ∀ y : Inst,
          y ∈ (sweepGo (if i.weight = 2 then lq ++ i.support else lq) rest).1 →
            overlaps lq y.support = false := by
        intro y hy
        have h := ih (if i.weight = 2 then lq ++ i.support else lq) y hy
        by_cases hw : i.weight = 2
        · rw [if_pos hw, overlaps_append] at h
          exact (Bool.or_eq_false_iff.1 h).1
        · rwa [if_neg hw] at h
      revert hx
      show x ∈ (if overlaps lq i.support then
          ((sweepGo (if i.weight = 2 then lq ++ i.support else lq) rest).1,
            i :: (sweepGo (if i.weight = 2 then lq ++ i.support else lq) rest).2)
        else
          (i :: (sweepGo (if i.weight = 2 then lq ++ i.support else lq) rest).1,
            (sweepGo (if i.weight = 2 then lq ++ i.support else lq) rest).2)).1 → _
      by_cases h : overlaps lq i.support
      · rw [if_pos h]
        intro hx
        exact hsub x hx
      · rw [if_neg h]
        intro hx
        rcases List.mem_cons.1 hx with rfl | hx2
        · simpa using h
        · exact hsub x hx2

theorem sweepGo_cliff_pairwise : ∀ (l : List Inst) (lq : List ℕ),
    (separateGates (sweepGo lq l).1 2).Pairwise
      (fun a b => overlaps a.support b.support = false) := by
  intro l
  induction l with
  | nil => intro lq; simp [sweepGo, separateGates]
  | cons i rest ih =>
      intro lq
      have hshape : sweepGo lq (i :: rest) =
          (if overlaps lq i.support then
            ((sweepGo (if i.weight = 2 then lq ++ i.support else lq) rest).1,
              i :: (sweepGo (if i.weight = 2 then lq ++ i.support else lq) rest).2)
          else
            (i :: (sweepGo (if i.weight = 2 then lq ++ i.support else lq) rest).1,
              (sweepGo (if i.weight = 2 then lq ++ i.support else lq) rest).2)) := rfl
      rw [hshape]
      by_cases h : overlaps lq i.support
      · rw [if_pos h]
        exact ih (if i.weight = 2 then lq ++ i.support else lq)
      · rw [if_neg h]
        show (separateGates (i :: (sweepGo _ rest).1) 2).Pairwise _
        unfold separateGates
        rw [List.filter_cons]
        by_cases hw : i.weight = 2
        · rw [if_pos (by simpa using hw)]
          apply List.Pairwise.cons
          · intro b hb
            have hbmem : b ∈ (sweepGo (lq ++ i.support) rest).1 := by
              have := (List.mem_filter.1 hb).1
              rwa [if_pos hw] at this
            have havoid := sweepGo_placed_avoid rest (lq ++ i.support) b hbmem
            rw [overlaps_append] at havoid
            exact (Bool.or_eq_false_iff.1 havoid).2
          · have := ih (if i.weight = 2 then lq ++ i.support else lq)
            unfold separateGates at this
            exact this
        · rw [if_neg (by simpa using hw)]
          have := ih (if i.weight = 2 then lq ++ i.support else lq)
          unfold separateGates at this
          exact this

theorem sweepGo_snd_length : ∀ (l : List Inst) (lq : List ℕ),
    ((sweepGo lq l).2).length ≤ l.length := by
  intro l
  induction l with
  | nil => intro lq; simp [sweepGo]
  | cons i rest ih =>
      intro lq
      have hshape : sweepGo lq (i :: rest) =
          (if overlaps lq i.support then
            ((sweepGo (if i.weight = 2 then lq ++ i.support else lq) rest).1,
              i :: (sweepGo (if i.weight = 2 then lq ++ i.support else lq) rest).2)
          else
            (i :: (sweepGo (if i.weight = 2 then lq ++ i.support else lq) rest).1,
              (sweepGo (if i.weight = 2 then lq ++ i.support else lq) rest).2)) := rfl
      rw [hshape]
      by_cases h : overlaps lq i.support
      · rw [if_pos h]
        exact Nat.succ_le_succ (ih _)
      · rw [if_neg h]
        exact Nat.le_succ_of_le (ih _)

theorem sweepGo_head_placed (i : Inst) (rest : List Inst) :
    sweepGo [] (i :: rest) =
      (i :: (sweepGo (if i.weight = 2 then [] ++ i.support else []) rest).1,
        (sweepGo (if i.weight = 2 then [] ++ i.support else []) rest).2) := by
  have hshape : sweepGo [] (i :: rest) =
      (if overlaps [] i.support then
        ((sweepGo (if i.weight = 2 then [] ++ i.support else []) rest).1,
          i :: (sweepGo (if i.weight = 2 then [] ++ i.support else []) rest).2)
      else
        (i :: (sweepGo (if i.weight = 2 then [] ++ i.support else []) rest).1,
          (sweepGo (if i.weight = 2 then [] ++ i.support else []) rest).2)) := rfl
  rw [hshape, overlaps_nil]
  rfl

theorem layersLoop_props : ∀ (N : ℕ) (l : List Inst), l.length ≤ N →
    ∀ layer ∈ layersLoop l,
      ((separateGates layer 2).Pairwise (fun a b => overlaps a.support b.support = false)) ∧
      (∀ x ∈ layer, x ∈ l) := by
  intro N
  induction N with
  | zero =>
      intro l hl layer hmem
      have hnil : l = [] := List.length_eq_zero.1 (Nat.le_zero.1 hl)
      subst hnil
      rw [layersLoop] at hmem
      exact absurd hmem (List.not_mem_nil layer)
  | succ N ihN =>
      intro l hl layer hmem
      cases l with
      | nil =>
          rw [layersLoop] at hmem
          exact absurd hmem (List.not_mem_nil layer)
      | cons i rest =>
          rw [layersLoop] at hmem
          have hremlen : ((sweepGo [] (i :: rest)).2).length ≤ N := by
            rw [sweepGo_head_placed]
            exact le_trans (sweepGo_snd_length rest _) (Nat.le_of_succ_le_succ hl)
          have hmem2 : layer = (sweepGo [] (i :: rest)).1 ∨
              layer ∈ layersLoop ((sweepGo [] (i :: rest)).2) := by
            by_cases hc : separateGates (sweepGo [] (i :: rest)).1 2 ≠ []
            · rw [if_pos hc] at hmem
              exact List.mem_cons.1 hmem
            · rw [if_neg hc] at hmem
              exact Or.inr hmem
          rcases hmem2 with rfl | hrec
          · exact ⟨sweepGo_cliff_pairwise (i :: rest) [],
              (sweepGo_mem (i :: rest) []).1⟩
          · have hprops := ihN ((sweepGo [] (i :: rest)).2) hremlen layer hrec
            exact ⟨hprops.1, fun x hx =>
              (sweepGo_mem (i :: rest) []).2 x (hprops.2 x hx)⟩

/-- Counterexample to C3 as stated: sweeping
`[cx(0,1), cx(1,2), cx(2,3)]` places only `cx(0,1)`.  The support `[2,3]` of
`cx(2,3)` is disjoint from the accumulated support of the two-qubit
instructions actually *placed* in this sweep (only `cx(0,1)`), yet `cx(2,3)`
is not added: the blocked instruction `cx(1,2)` contributed its support to the
blocking set. -/
theorem sweep_blocked_two_qubit_blocks_cex :
    sweepGo [] [⟨"cx", [0, 1]⟩, ⟨"cx", [1, 2]⟩, ⟨"cx", [2, 3]⟩] =
      ([⟨"cx", [0, 1]⟩], [⟨"cx", [1, 2]⟩, ⟨"cx", [2, 3]⟩]) ∧
    overlaps (twoQubitSupport [⟨"cx", [0, 1]⟩]) [2, 3] = false := by
  constructor
  · rfl
  · rfl

/-- C3 amended.  An instruction is placed iff its support is disjoint from the
union of the supports of *all* two-qubit instructions processed earlier in the
sweep, whether those were placed or blocked: every encountered two-qubit
instruction adds its support to the blocking set. -/
theorem sweep_placement_blocking_rule (l : List Inst) (k : ℕ) (hk : k < l.length) :
    sweepGo [] l = (maskKeep l (placedMask [] l), maskDrop l (placedMask [] l)) ∧
    (placedMask [] l).getD k true =
      !overlaps (twoQubitSupport (l.take k)) ((l.getD k ⟨"", []⟩).support) := by
  refine ⟨sweepGo_eq_mask l [], ?_⟩
  have h := placedMask_getD l [] k hk
  simpa using h

/-- Witness for C3's amended statement: in the counterexample sweep, the third
instruction's placement bit is governed by the supports of both earlier
two-qubit instructions. -/
theorem sweep_placement_blocking_rule_w :
    sweepGo [] [⟨"cx", [0, 1]⟩, ⟨"cx", [1, 2]⟩, ⟨"cx", [2, 3]⟩] =
      (maskKeep [⟨"cx", [0, 1]⟩, ⟨"cx", [1, 2]⟩, ⟨"cx", [2, 3]⟩]
          (placedMask [] [⟨"cx", [0, 1]⟩, ⟨"cx", [1, 2]⟩, ⟨"cx", [2, 3]⟩]),
        maskDrop [⟨"cx", [0, 1]⟩, ⟨"cx", [1, 2]⟩, ⟨"cx", [2, 3]⟩]
          (placedMask [] [⟨"cx", [0, 1]⟩, ⟨"cx", [1, 2]⟩, ⟨"cx", [2, 3]⟩])) ∧
    (placedMask [] [⟨"cx", [0, 1]⟩, ⟨"cx", [1, 2]⟩, ⟨"cx", [2, 3]⟩]).getD 2 true =
      !overlaps
        (twoQubitSupport (([⟨"cx", [0, 1]⟩, ⟨"cx", [1, 2]⟩, ⟨"cx", [2, 3]⟩] :
          List Inst).take 2))
        ((([⟨"cx", [0, 1]⟩, ⟨"cx", [1, 2]⟩, ⟨"cx", [2, 3]⟩] :
          List Inst).getD 2 ⟨"", []⟩).support) :=
  sweep_placement_blocking_rule [⟨"cx", [0, 1]⟩, ⟨"cx", [1, 2]⟩, ⟨"cx", [2, 3]⟩] 2
    (by norm_num)

/-- C4.  For a circuit whose non-measurement instructions all have weight one
or two, every produced layer has pairwise support-disjoint Clifford
(`separate_gates(2)`) instructions, and the single-qubit and Clifford parts
together are exactly the layer's instruction set. -/
theorem benchmark_layer_partition_invariant (qc : List Inst)
    (hw : ∀ i ∈ qc, i.ismeas = false → i.weight = 1 ∨ i.weight = 2) :
    ∀ layer ∈ circuitToBenchmarkLayers qc,
      (separateGates layer 2).Pairwise (fun a b => overlaps a.support b.support = false) ∧
      (separateGates layer 1).toFinset ∪ (separateGates layer 2).toFinset =
        layer.toFinset := by
  intro layer hmem
  have hprops := layersLoop_props (qc.filter (fun i => !i.ismeas)).length
    (qc.filter (fun i => !i.ismeas)) (le_refl _) layer hmem
  refine ⟨hprops.1, ?_⟩
  ext a
  simp only [Finset.mem_union, List.mem_toFinset, separateGates, List.mem_filter,
    beq_iff_eq]
  constructor
  · rintro (⟨h, _⟩ | ⟨h, _⟩) <;> exact h
  · intro ha
    have hx := hprops.2 a ha
    rw [List.mem_filter] at hx
    have hmeas : a.ismeas = false := by
      simpa using hx.2
    rcases hw a hx.1 hmeas with h1 | h2
    · exact Or.inl ⟨ha, h1⟩
    · exact Or.inr ⟨ha, h2⟩

/-- Witness for C4 at the single layer produced from a circuit with a
two-qubit gate, a single-qubit gate, and a measurement. -/
theorem benchmark_layer_partition_invariant_w :
    (separateGates [(⟨"cx", [0, 1]⟩ : Inst)] 2).Pairwise
      (fun a b => overlaps a.support b.support = false) ∧
    (separateGates [(⟨"cx", [0, 1]⟩ : Inst)] 1).toFinset ∪
      (separateGates [(⟨"cx", [0, 1]⟩ : Inst)] 2).toFinset =
      ([(⟨"cx", [0, 1]⟩ : Inst)]).toFinset :=
  benchmark_layer_partition_invariant [⟨"cx", [0, 1]⟩, ⟨"h", [0]⟩, ⟨"measure", [0]⟩]
    (by decide) [⟨"cx", [0, 1]⟩]
    (by
      have h1 : (([⟨"cx", [0, 1]⟩, ⟨"h", [0]⟩, ⟨"measure", [0]⟩] : List Inst).filter
          (fun i => !i.ismeas)) = [⟨"cx", [0, 1]⟩, ⟨"h", [0]⟩] := by decide
      unfold circuitToBenchmarkLayers
      rw [h1]
      rw [layersLoop]
      rw [if_pos (by decide)]
      exact List.mem_cons_self _ _)

end PER
